import Mathlib

/-!
Verification of the tag batch synchronizer in `src/meta.ts` of the
metadata-utils repository.

The module under study reads licensing-related metadata tags (creator,
license, rights) from image files through an external metadata engine
(`exiftool-vendored`), diffs them against caller-supplied desired values,
and writes the desired values back.  We give a shallow embedding of the
two exported functions `getTags` and `writeImageTags` and prove the
behavioural claims about them.

Modelling conventions:
* A JavaScript value that is a string or `undefined` is `Option String`
  (`none` = `undefined`).  Template-literal interpolation of `undefined`
  produces the text "undefined", which `interpolate` reproduces.
* A JavaScript object used as a string-keyed map (the `linkedFiles`
  accumulator of `getTags`) is an association list in insertion order;
  assigning to an existing key updates the entry in place, assigning to
  a fresh key appends.  `Object.entries` iterates in that order (true in
  JavaScript for non-integer-like keys such as file names).
* The caller-supplied `newTags : any` object is `DesiredTags`: each field
  is `Option (Option String)`; the outer layer records whether the key is
  present (`hasOwnProperty`), the inner layer is the stored value, which
  may itself be `undefined`.
* Promises are values of `Except ε α`; `Promise.all` is `promiseAll`,
  which fails whenever any member fails.  The external engine is a record
  `Exiftool` of its `readRaw` and `write` operations.
* JavaScript loose inequality `!=` between two string-or-undefined values
  coincides with decidable inequality on `Option String`.
-/

namespace MetadataUtils

/-- Result of one `exiftool.readRaw` call, restricted to the fields the
module consumes after the JSON round-trip: the canonical `SourceFile`
path and the three optional tracked tags. -/
structure RawTags where
  SourceFile : String
  Creator : Option String
  License : Option String
  Rights : Option String
deriving DecidableEq, Repr

/-- The `fileType` union type of `meta.ts`: `"audio" | "image"`. -/
inductive fileType where
  | audio : fileType
  | image : fileType
deriving DecidableEq, Repr

/-- The `linkedFileType` interface of `meta.ts` (the optional bulk `tags`
field is commented out in the source and therefore omitted). -/
structure linkedFileType where
  fileName : String
  fileType : fileType
  sourceFile : Option String
  creator : Option String
  license : Option String
  rights : Option String
deriving DecidableEq, Repr

/-- One entry of the `xmpTagType` write payload: an XMP tag name together
with the (possibly `undefined`) value assigned to it.  In JavaScript,
assigning `undefined` to a property still creates the key, so the value
is `Option String`. -/
structure XmpTag where
  key : String
  value : Option String
deriving DecidableEq, Repr

/-- Caller-supplied `newTags` object of `writeImageTags`.  The outer
`Option` is key presence (`hasOwnProperty`); the inner `Option String`
is the stored value (`none` = an explicit `undefined`). -/
structure DesiredTags where
  creator : Option (Option String)
  license : Option (Option String)
  rights : Option (Option String)
deriving DecidableEq, Repr

/-- One enqueued `exiftool.write` call: the target path (the
`currentTags.sourceFile as string` argument), the staged tag payload in
insertion order, and the option list. -/
structure WriteRequest where
  path : Option String
  tags : List XmpTag
  options : List String
deriving DecidableEq, Repr

/-- The external metadata engine: `readRaw` takes a file path and an
argument list and yields raw tags or fails; `write` takes the target
path, the payload and the option list and succeeds or fails. -/
structure Exiftool (ε : Type) where
  readRaw : String → List String → Except ε RawTags
  write : Option String → List XmpTag → List String → Except String Unit

/-- `path.basename`: the characters after the last `/` separator.
(Reported source-file paths are plain file paths, so the trailing-slash
special cases of Node's `basename` do not arise.) -/
def basenameAux (cs : List Char) : List Char :=
  cs.foldl (fun acc c => if c = '/' then [] else acc ++ [c]) []

/-- `path.basename` on strings. -/
def basename (p : String) : String :=
  (basenameAux p.toList).asString

/-- Template-literal interpolation `${x}` of a string-or-undefined
value. -/
def interpolate : Option String → String
  | some s => s
  | none => "undefined"

/-- Model of `parseJSON(JSON.stringify(rawTags))`: on the modelled fields
(plain strings) serialization followed by parsing reproduces every
field. -/
def jsonRoundTrip (rawTags : RawTags) : RawTags :=
  { SourceFile := rawTags.SourceFile
    Creator := rawTags.Creator
    License := rawTags.License
    Rights := rawTags.Rights }

/-- Property read `m[k]` on the JavaScript object model. -/
def objGet (m : List (String × linkedFileType)) (k : String) :
    Option linkedFileType :=
  match m with
  | [] => none
  | (k', v) :: rest => if k' = k then some v else objGet rest k

/-- Property assignment `m[k] = v` on the JavaScript object model: an
existing key is updated in place (keeping its insertion position), a
fresh key is appended.  (A JavaScript object holds each key at most
once, so updating the first occurrence is exact.) -/
def objInsert (m : List (String × linkedFileType)) (k : String)
    (v : linkedFileType) : List (String × linkedFileType) :=
  match m with
  | [] => [(k, v)]
  | (k', v') :: rest =>
    if k' = k then (k, v) :: rest else (k', v') :: objInsert rest k v

/-- The `linkedFileType` record that `getTags` stores for one raw read
result. -/
def toLinkedFile (rawTags : RawTags) : linkedFileType :=
  let tags := jsonRoundTrip rawTags
  let id := basename tags.SourceFile
  { fileName := id
    fileType := fileType.image
    sourceFile := some tags.SourceFile
    creator := tags.Creator
    license := tags.License
    rights := tags.Rights }

/-- One iteration of the `allTags.forEach` loop of `getTags`: round-trip
the raw tags through JSON, key them by the base name of the reported
source-file path, and store the linked record. -/
def linkFilesStep (linkedFiles : List (String × linkedFileType))
    (rawTags : RawTags) : List (String × linkedFileType) :=
  objInsert linkedFiles (basename (jsonRoundTrip rawTags).SourceFile)
    (toLinkedFile rawTags)

/-- The `allTags.forEach` loop of `getTags`: fold the read results into
the `linkedFiles` object. -/
def linkFiles (allTags : List RawTags) : List (String × linkedFileType) :=
  allTags.foldl linkFilesStep []

/-- `Promise.all`: succeeds with the list of results when every member
succeeds, fails whenever any member fails. -/
def promiseAll {ε α : Type} : List (Except ε α) → Except ε (List α)
  | [] => Except.ok []
  | p :: rest =>
    match p with
    | Except.error e => Except.error e
    | Except.ok a =>
      match promiseAll rest with
      | Except.error e => Except.error e
      | Except.ok as => Except.ok (a :: as)

/-- The argument list passed to every `exiftool.readRaw` call. -/
def readArgs : List String := ["all", "-xmp:all"]

/-- `getTags`: dispatch one `readRaw` per input file, await all of them,
and link the results into the base-name-keyed object. -/
def getTags {ε : Type} (exif : Exiftool ε) (files : List String) :
    Except ε (List (String × linkedFileType)) :=
  let promises := files.map (fun file => exif.readRaw file readArgs)
  match promiseAll promises with
  | Except.error e => Except.error e
  | Except.ok allTags => Except.ok (linkFiles allTags)

/-- The warning string of `writeImageTags`, built exactly as in the
source: the concatenation of the two template literals
`WARNING: Overwriting ${path.basename(currentTags.fileName)} ` and
`existing <field>: ${current} with ${desired}`. -/
def mkWarning (base field : String) (current desired : Option String) :
    String :=
  ("WARNING: Overwriting " ++ base ++ " ") ++
    ("existing " ++ field ++ ": " ++ interpolate current ++ " with " ++
      interpolate desired)

/-- One `if (newTags.hasOwnProperty(<field>)) { ... }` block of the
per-file loop: when the key is present, emit a warning if the current
value loosely differs from the desired one, and stage the desired value
under the fixed XMP tag name; when the key is absent, do nothing.
Returns the warnings pushed and the payload entries added. -/
def updateField (base field tagKey : String) (current : Option String)
    (desired : Option (Option String)) : List String × List XmpTag :=
  match desired with
  | none => ([], [])
  | some v =>
    ((if current ≠ v then [mkWarning base field current v] else []),
     [{ key := tagKey, value := v }])

/-- The body of the `for (const [id, currentTags] of Object.entries(...))`
loop for one file: the three field blocks run in the fixed order creator,
license, rights, each appending to `modified` and to `tagToWrite`. -/
def processFile (newTags : DesiredTags) (currentTags : linkedFileType) :
    List String × List XmpTag :=
  let base := basename currentTags.fileName
  let creatorStep :=
    updateField base "creator" "XMP:Creator" currentTags.creator
      newTags.creator
  let licenseStep :=
    updateField base "license" "XMP:License" currentTags.license
      newTags.license
  let rightsStep :=
    updateField base "rights" "XMP:Rights" currentTags.rights
      newTags.rights
  (creatorStep.1 ++ licenseStep.1 ++ rightsStep.1,
   creatorStep.2 ++ licenseStep.2 ++ rightsStep.2)

/-- One iteration of the `for (const [id, currentTags] of
Object.entries(fileTags))` loop: run the three field blocks, append the
warnings to `modified`, and enqueue a write request when
`Object.keys(tagToWrite).length != 0`, targeting the entry's
`sourceFile` with the `-overwrite_original` option. -/
def writeLoopStep (newTags : DesiredTags)
    (acc : List String × List WriteRequest)
    (entry : String × linkedFileType) : List String × List WriteRequest :=
  let currentTags := entry.2
  let step := processFile newTags currentTags
  let modified := acc.1 ++ step.1
  let promises :=
    if step.2.length ≠ 0 then
      acc.2 ++ [{ path := currentTags.sourceFile, tags := step.2,
                  options := ["-overwrite_original"] }]
    else acc.2
  (modified, promises)

/-- The whole per-file loop of `writeImageTags`: iterate over the entries
of `fileTags` in order, accumulating the `modified` warning list and the
`promises` list of enqueued write requests. -/
def writeLoop (fileTags : List (String × linkedFileType))
    (newTags : DesiredTags) : List String × List WriteRequest :=
  fileTags.foldl (writeLoopStep newTags) ([], [])

/-- `writeImageTags`: await `getTags` (propagating its failure uncaught),
run the per-file loop, dispatch every enqueued write, swallow write
failures (`Promise.all(...).catch` logs and discards them), and return
the accumulated `modified` list. -/
def writeImageTags {ε : Type} (exif : Exiftool ε) (files : List String)
    (newTags : DesiredTags) : Except ε (List String) :=
  match getTags exif files with
  | Except.error e => Except.error e
  | Except.ok fileTags =>
    let step := writeLoop fileTags newTags
    let _writeOutcomes :=
      step.2.map (fun r => exif.write r.path r.tags r.options)
    Except.ok step.1

/-- The write calls actually performed by `writeImageTags`, each paired
with its outcome.  All enqueued requests are dispatched before the
aggregate `Promise.all` settles, so every request appears here whatever
the individual outcomes are. -/
def executedWrites {ε : Type} (exif : Exiftool ε) (files : List String)
    (newTags : DesiredTags) : List (WriteRequest × Except String Unit) :=
  match getTags exif files with
  | Except.error _ => []
  | Except.ok fileTags =>
    ((writeLoop fileTags newTags).2).map
      (fun r => (r, exif.write r.path r.tags r.options))

/-- The console-error output of the write phase: `.catch` fires once with
the first rejection, whose message is logged. -/
def firstErrorMessage
    (outcomes : List (WriteRequest × Except String Unit)) : Option String :=
  outcomes.findSome?
    (fun p => match p.2 with
      | Except.error m => some m
      | Except.ok _ => none)

/-- Lines printed by `console.error` during the write phase of
`writeImageTags`. -/
def writeImageTagsLog {ε : Type} (exif : Exiftool ε) (files : List String)
    (newTags : DesiredTags) : List String :=
  match firstErrorMessage (executedWrites exif files newTags) with
  | some m => [m]
  | none => []

/-- One observable interaction with the external engine. -/
inductive Event where
  | readEv : String → List String → Event
  | writeEv : WriteRequest → Event
deriving DecidableEq, Repr

/-- The interaction trace of one `writeImageTags` call: the read phase
dispatches one `readRaw` per input file; only after `await getTags`
resolves does the loop build and dispatch the write requests.  When any
read fails, `await` re-throws and no write is ever dispatched. -/
def writeImageTagsTrace {ε : Type} (exif : Exiftool ε)
    (files : List String) (newTags : DesiredTags) : List Event :=
  let readEvents := files.map (fun file => Event.readEv file readArgs)
  match getTags exif files with
  | Except.error _ => readEvents
  | Except.ok fileTags =>
    readEvents ++ ((writeLoop fileTags newTags).2).map Event.writeEv

/-- The mapping key under which `getTags` stores one read result. -/
def rawKey (rawTags : RawTags) : String :=
  basename (jsonRoundTrip rawTags).SourceFile

/-- The write request (if any) enqueued for one entry of `fileTags`:
`some` exactly when the staged payload is non-empty. -/
def writeReq (newTags : DesiredTags) (e : String × linkedFileType) :
    Option WriteRequest :=
  let step := processFile newTags e.2
  if step.2.length ≠ 0 then
    some { path := e.2.sourceFile, tags := step.2,
           options := ["-overwrite_original"] }
  else none

/-! ### Spec-side definitions

These transcribe the specification's description of the warning/staging
behaviour word for word, to be compared with the embedding of the
source. -/

/-- Spec-side: the warning in its stated exact form,
`WARNING: Overwriting <baseName> existing <field>: <currentValue> with
<desiredValue>`. -/
def specWarning (baseName field : String)
    (currentValue desiredValue : Option String) : String :=
  "WARNING: Overwriting " ++ baseName ++ " existing " ++ field ++ ": " ++
    interpolate currentValue ++ " with " ++ interpolate desiredValue

/-- Spec-side: the warnings recorded for one field of one file: one
warning exactly when the field is present in the desired tags and the
current value differs from the desired value (including
current=undefined versus desired=non-empty and vice versa). -/
def specFieldWarnings (baseName field : String) (current : Option String)
    (desired : Option (Option String)) : List String :=
  match desired with
  | some v =>
    if current ≠ v then [specWarning baseName field current v] else []
  | none => []

/-- Spec-side: the warnings for one file, in the fixed field order
creator, then license, then rights. -/
def specFileWarnings (baseName : String) (desiredTags : DesiredTags)
    (file : linkedFileType) : List String :=
  specFieldWarnings baseName "creator" file.creator desiredTags.creator ++
  specFieldWarnings baseName "license" file.license desiredTags.license ++
  specFieldWarnings baseName "rights" file.rights desiredTags.rights

/-- Spec-side: the full warning list: files in the mapping's entry order,
each contributing its field warnings under its base name. -/
def specWarnings (fileTags : List (String × linkedFileType))
    (desiredTags : DesiredTags) : List String :=
  fileTags.flatMap (fun e => specFileWarnings e.2.fileName desiredTags e.2)

/-- Spec-side: the staged per-file payload under the fixed mapping
creator→XMP:Creator, license→XMP:License, rights→XMP:Rights: every
present field is staged regardless of whether a difference was
detected. -/
def specStagedTags (desiredTags : DesiredTags) : List XmpTag :=
  (match desiredTags.creator with
   | some v => [{ key := "XMP:Creator", value := v }]
   | none => []) ++
  (match desiredTags.license with
   | some v => [{ key := "XMP:License", value := v }]
   | none => []) ++
  (match desiredTags.rights with
   | some v => [{ key := "XMP:Rights", value := v }]
   | none => [])

/-- Whether at least one of the three tracked keys is present in the
desired tags. -/
def hasTargetedField (desiredTags : DesiredTags) : Bool :=
  desiredTags.creator.isSome || desiredTags.license.isSome ||
    desiredTags.rights.isSome

/-- Whether a targeted field's desired value equals the current value
(vacuously true for an absent key). -/
def fieldMatches (desired : Option (Option String))
    (current : Option String) : Bool :=
  match desired with
  | some v => current == v
  | none => true

/-! ### Example inputs used by the witnesses -/

/-- A raw read result for the example file `pics/a.jpg` with an existing
creator. -/
def exRaw : RawTags :=
  { SourceFile := "pics/a.jpg", Creator := some "Alice", License := none,
    Rights := none }

/-- An engine whose reads all succeed with `exRaw` and whose writes all
succeed. -/
def exExif : Exiftool String :=
  { readRaw := fun _ _ => Except.ok exRaw
    write := fun _ _ _ => Except.ok () }

/-- An engine whose reads all fail. -/
def exExifBadRead : Exiftool String :=
  { readRaw := fun _ _ => Except.error "read fails"
    write := fun _ _ _ => Except.ok () }

/-- An engine whose reads succeed but whose writes all fail. -/
def exExifBadWrite : Exiftool String :=
  { readRaw := fun _ _ => Except.ok exRaw
    write := fun _ _ _ => Except.error "write fails" }

/-- Desired tags requesting a new creator. -/
def exDesired : DesiredTags :=
  { creator := some (some "Carol"), license := none, rights := none }

/-! ### Basic lemmas about the embedding -/

theorem toLinkedFile_fileName (r : RawTags) :
    (toLinkedFile r).fileName = rawKey r := rfl

theorem basenameAux_no_slash (cs : List Char) :
    ∀ acc : List Char, '/' ∉ acc →
      '/' ∉ cs.foldl (fun acc c => if c = '/' then [] else acc ++ [c]) acc := by
  induction cs with
  | nil => intro acc h; exact h
  | cons c cs ih =>
    intro acc h
    simp only [List.foldl_cons]
    by_cases hc : c = '/'
    · rw [if_pos hc]; exact ih [] (by simp)
    · rw [if_neg hc]
      refine ih (acc ++ [c]) ?_
      intro hm
      rcases List.mem_append.1 hm with h1 | h1
      · exact h h1
      · simp at h1; exact hc h1.symm

theorem basenameAux_of_no_slash (cs : List Char) :
    ∀ acc : List Char, '/' ∉ cs →
      cs.foldl (fun acc c => if c = '/' then [] else acc ++ [c]) acc
        = acc ++ cs := by
  induction cs with
  | nil => intro acc _; simp
  | cons c cs ih =>
    intro acc h
    have hc : c ≠ '/' := fun hc => h (by simp [hc])
    have hcs : '/' ∉ cs := fun hm => h (by simp [hm])
    simp only [List.foldl_cons, if_neg hc]
    rw [ih (acc ++ [c]) hcs, List.append_assoc]
    rfl

theorem no_slash_basename (p : String) : '/' ∉ (basename p).toList := by
  have := basenameAux_no_slash p.toList [] (by simp)
  simpa [basename, basenameAux] using this

theorem basename_eq_self_of_no_slash (s : String) (h : '/' ∉ s.toList) :
    basename s = s := by
  unfold basename basenameAux
  rw [basenameAux_of_no_slash _ [] h]
  rfl

theorem basename_idem (p : String) : basename (basename p) = basename p :=
  basename_eq_self_of_no_slash _ (no_slash_basename p)

/-! Lemmas on the JavaScript object model. -/

theorem objGet_objInsert (m : List (String × linkedFileType)) (k k' : String)
    (v : linkedFileType) :
    objGet (objInsert m k v) k' = if k = k' then some v else objGet m k' := by
  induction m with
  | nil =>
    by_cases h : k = k' <;> simp [objInsert, objGet, h]
  | cons a rest ih =>
    obtain ⟨a1, a2⟩ := a
    by_cases ha : a1 = k
    · subst ha
      by_cases h : a1 = k'
      · simp [objInsert, objGet, h]
      · simp [objInsert, objGet, h]
    · by_cases h : a1 = k'
      · subst h
        have hka : ¬ k = a1 := fun hk => ha hk.symm
        simp [objInsert, objGet, ha, hka]
      · simp [objInsert, objGet, ha, h, ih]

theorem objGet_eq_none_iff (m : List (String × linkedFileType)) (k : String) :
    objGet m k = none ↔ k ∉ m.map Prod.fst := by
  induction m with
  | nil => simp [objGet]
  | cons a rest ih =>
    obtain ⟨a1, a2⟩ := a
    by_cases ha : a1 = k
    · simp [objGet, ha]
    · simp [objGet, ha, ih, Ne.symm ha]

theorem keys_objInsert (m : List (String × linkedFileType)) (k : String)
    (v : linkedFileType) :
    (objInsert m k v).map Prod.fst
      = if objGet m k = none then m.map Prod.fst ++ [k]
        else m.map Prod.fst := by
  induction m with
  | nil => simp [objInsert, objGet]
  | cons a rest ih =>
    obtain ⟨a1, a2⟩ := a
    by_cases ha : a1 = k
    · simp [objInsert, objGet, ha]
    · by_cases hr : objGet rest k = none
      · simp [objInsert, objGet, ha, hr, ih]
      · simp [objInsert, objGet, ha, hr, ih]

theorem keys_objInsert_nodup (m : List (String × linkedFileType)) (k : String)
    (v : linkedFileType) (h : (m.map Prod.fst).Nodup) :
    ((objInsert m k v).map Prod.fst).Nodup := by
  rw [keys_objInsert]
  by_cases hn : objGet m k = none
  · rw [if_pos hn]
    have hk : k ∉ m.map Prod.fst := (objGet_eq_none_iff m k).1 hn
    rw [List.nodup_append]
    refine ⟨h, List.nodup_singleton k, ?_⟩
    intro a ha hb
    simp at hb
    exact hk (hb ▸ ha)
  · rwa [if_neg hn]

theorem mem_objInsert (m : List (String × linkedFileType)) (k : String)
    (v : linkedFileType) (e : String × linkedFileType)
    (h : e ∈ objInsert m k v) : e = (k, v) ∨ e ∈ m := by
  induction m with
  | nil => simp [objInsert] at h; exact Or.inl h
  | cons a rest ih =>
    obtain ⟨a1, a2⟩ := a
    by_cases ha : a1 = k
    · rw [objInsert, if_pos ha] at h
      rcases List.mem_cons.1 h with h' | h'
      · exact Or.inl h'
      · exact Or.inr (List.mem_cons_of_mem _ h')
    · rw [objInsert, if_neg ha] at h
      rcases List.mem_cons.1 h with h' | h'
      · exact Or.inr (h' ▸ List.mem_cons_self _ _)
      · rcases ih h' with h'' | h''
        · exact Or.inl h''
        · exact Or.inr (List.mem_cons_of_mem _ h'')

/-! Lemmas on `linkFiles`: last-write-wins lookup, distinct keys,
provenance of every entry. -/

theorem objGet_linkFiles_foldl (raws : List RawTags)
    (m : List (String × linkedFileType)) (k : String) :
    objGet (raws.foldl linkFilesStep m) k
      = match raws.reverse.find? (fun r => decide (rawKey r = k)) with
        | some r => some (toLinkedFile r)
        | none => objGet m k := by
  induction raws generalizing m with
  | nil => rfl
  | cons r rs ih =>
    simp only [List.foldl_cons, List.reverse_cons, List.find?_append, ih]
    cases hfind : rs.reverse.find? (fun r => decide (rawKey r = k)) with
    | some r' => simp
    | none =>
      simp only [Option.none_or]
      rw [linkFilesStep, objGet_objInsert]
      by_cases hk : rawKey r = k
      · simp [List.find?, rawKey] at hk ⊢
        simp [hk]
      · simp [List.find?, rawKey] at hk ⊢
        simp [hk]

theorem objGet_linkFiles (raws : List RawTags) (k : String) :
    objGet (linkFiles raws) k
      = (raws.reverse.find? (fun r => decide (rawKey r = k))).map
          toLinkedFile := by
  rw [linkFiles, objGet_linkFiles_foldl]
  cases raws.reverse.find? (fun r => decide (rawKey r = k)) <;>
    simp [objGet]

theorem linkFiles_keys_nodup_foldl (raws : List RawTags)
    (m : List (String × linkedFileType)) (h : (m.map Prod.fst).Nodup) :
    (((raws.foldl linkFilesStep m)).map Prod.fst).Nodup := by
  induction raws generalizing m with
  | nil => exact h
  | cons r rs ih =>
    exact ih _ (keys_objInsert_nodup _ _ _ h)

theorem linkFiles_keys_nodup (raws : List RawTags) :
    ((linkFiles raws).map Prod.fst).Nodup :=
  linkFiles_keys_nodup_foldl raws [] (by simp)

theorem mem_linkFiles_foldl (raws : List RawTags)
    (m : List (String × linkedFileType)) (e : String × linkedFileType)
    (h : e ∈ raws.foldl linkFilesStep m) :
    e ∈ m ∨ ∃ r ∈ raws, e = (rawKey r, toLinkedFile r) := by
  induction raws generalizing m with
  | nil => exact Or.inl h
  | cons r rs ih =>
    rcases ih _ h with h' | h'
    · rcases mem_objInsert _ _ _ _ h' with h'' | h''
      · right; exact ⟨r, by simp, h''⟩
      · left; exact h''
    · right
      rcases h' with ⟨r', hr', he⟩
      exact ⟨r', by simp [hr'], he⟩

theorem mem_linkFiles (raws : List RawTags) (e : String × linkedFileType)
    (h : e ∈ linkFiles raws) :
    ∃ r ∈ raws, e = (rawKey r, toLinkedFile r) := by
  rcases mem_linkFiles_foldl raws [] e h with h' | h'
  · simp at h'
  · exact h'

/-! Lemmas on `promiseAll`. -/

theorem promiseAll_map_ok {ε α : Type} (l : List α) :
    promiseAll (l.map (Except.ok : α → Except ε α)) = Except.ok l := by
  induction l with
  | nil => rfl
  | cons a l ih => simp [promiseAll, ih]

theorem promiseAll_error_of_mem {ε α : Type} (l : List (Except ε α)) (e : ε)
    (h : Except.error e ∈ l) :
    ∃ e', promiseAll l = Except.error e' ∧ Except.error e' ∈ l := by
  induction l with
  | nil => simp at h
  | cons p rest ih =>
    cases p with
    | error e0 => exact ⟨e0, by simp [promiseAll], by simp⟩
    | ok a =>
      have hrest : Except.error e ∈ rest := by
        rcases List.mem_cons.1 h with h' | h'
        · simp at h'
        · exact h'
      rcases ih hrest with ⟨e', he', hmem⟩
      exact ⟨e', by simp [promiseAll, he'], List.mem_cons_of_mem _ hmem⟩

/-! The per-file loop of `writeImageTags`, characterized. -/

theorem writeLoop_foldl (fileTags : List (String × linkedFileType))
    (newTags : DesiredTags) (m : List String) (p : List WriteRequest) :
    fileTags.foldl (writeLoopStep newTags) (m, p)
      = (m ++ fileTags.flatMap (fun e => (processFile newTags e.2).1),
         p ++ fileTags.filterMap (writeReq newTags)) := by
  induction fileTags generalizing m p with
  | nil => simp
  | cons e es ih =>
    simp only [List.foldl_cons, List.flatMap_cons, List.filterMap_cons]
    rw [writeLoopStep]
    by_cases hc : (processFile newTags e.2).2.length ≠ 0
    · simp only [if_pos hc, ih, writeReq, List.append_assoc]
      simp [hc]
    · simp only [if_neg hc, ih, writeReq, List.append_assoc]

theorem writeLoop_eq (fileTags : List (String × linkedFileType))
    (newTags : DesiredTags) :
    writeLoop fileTags newTags
      = (fileTags.flatMap (fun e => (processFile newTags e.2).1),
         fileTags.filterMap (writeReq newTags)) := by
  rw [writeLoop, writeLoop_foldl]
  simp

/-! Bridging lemmas: the embedding agrees with the spec-side
transcription. -/

theorem mkWarning_eq_specWarning (base field : String)
    (cur des : Option String) :
    mkWarning base field cur des = specWarning base field cur des := by
  unfold mkWarning specWarning
  simp only [String.append_assoc]
  rw [← String.append_assoc " " "existing "]
  rw [(by decide : (" " : String) ++ "existing " = " existing ")]

theorem processFile_eq (newTags : DesiredTags) (ct : linkedFileType) :
    processFile newTags ct
      = (specFileWarnings (basename ct.fileName) newTags ct,
         specStagedTags newTags) := by
  obtain ⟨oc, ol, og⟩ := newTags
  unfold processFile updateField specFileWarnings specFieldWarnings
    specStagedTags
  cases oc <;> cases ol <;> cases og <;>
    simp [mkWarning_eq_specWarning]

theorem specStagedTags_length (desiredTags : DesiredTags) :
    (specStagedTags desiredTags).length ≠ 0
      ↔ hasTargetedField desiredTags = true := by
  obtain ⟨oc, ol, og⟩ := desiredTags
  cases oc <;> cases ol <;> cases og <;>
    simp [specStagedTags, hasTargetedField]

theorem flatMap_congr_mem {α β : Type} (l : List α) (f g : α → List β)
    (h : ∀ a ∈ l, f a = g a) : l.flatMap f = l.flatMap g := by
  induction l with
  | nil => rfl
  | cons a l ih =>
    rw [List.flatMap_cons, List.flatMap_cons, h a (List.mem_cons_self a l),
      ih (fun b hb => h b (List.mem_cons_of_mem a hb))]

theorem linkFiles_basename_fileName (raws : List RawTags)
    (e : String × linkedFileType) (h : e ∈ linkFiles raws) :
    basename e.2.fileName = e.2.fileName := by
  rcases mem_linkFiles raws e h with ⟨r, _, he⟩
  subst he
  exact basename_idem _

theorem getTags_ok_inv {ε : Type} (exif : Exiftool ε) (files : List String)
    (fileTags : List (String × linkedFileType))
    (h : getTags exif files = Except.ok fileTags) :
    ∃ raws,
      promiseAll (files.map (fun file => exif.readRaw file readArgs))
          = Except.ok raws ∧
      fileTags = linkFiles raws := by
  have h' :
      (match promiseAll (files.map (fun file => exif.readRaw file readArgs))
        with
        | Except.error e => Except.error e
        | Except.ok allTags => Except.ok (linkFiles allTags))
        = Except.ok fileTags := h
  cases hp : promiseAll (files.map (fun file => exif.readRaw file readArgs))
    with
  | error e => rw [hp] at h'; cases h'
  | ok raws =>
    rw [hp] at h'
    refine ⟨raws, rfl, ?_⟩
    cases h'
    rfl

theorem writeImageTags_ok {ε : Type} (exif : Exiftool ε)
    (files : List String) (newTags : DesiredTags)
    (fileTags : List (String × linkedFileType))
    (h : getTags exif files = Except.ok fileTags) :
    writeImageTags exif files newTags
      = Except.ok ((writeLoop fileTags newTags).1) := by
  unfold writeImageTags
  rw [h]

theorem writeImageTags_error {ε : Type} (exif : Exiftool ε)
    (files : List String) (newTags : DesiredTags) (e : ε)
    (h : getTags exif files = Except.error e) :
    writeImageTags exif files newTags = Except.error e := by
  unfold writeImageTags
  rw [h]

theorem length_filterMap_of_isSome {α β : Type} (l : List α)
    (f : α → Option β) (h : ∀ a ∈ l, (f a).isSome = true) :
    (l.filterMap f).length = l.length := by
  induction l with
  | nil => rfl
  | cons a l ih =>
    rcases Option.isSome_iff_exists.1 (h a (List.mem_cons_self a l)) with
      ⟨b, hb⟩
    simp [List.filterMap_cons, hb,
      ih (fun x hx => h x (List.mem_cons_of_mem a hx))]

theorem writeReq_eq_some (newTags : DesiredTags)
    (e : String × linkedFileType) (r : WriteRequest)
    (h : writeReq newTags e = some r) :
    r = { path := e.2.sourceFile, tags := (processFile newTags e.2).2,
          options := ["-overwrite_original"] } ∧
    (processFile newTags e.2).2 ≠ [] := by
  simp only [writeReq] at h
  by_cases hc : (processFile newTags e.2).2.length ≠ 0
  · rw [if_pos hc] at h
    refine ⟨?_, fun hnil => hc (by simp [hnil])⟩
    cases h
    rfl
  · rw [if_neg hc] at h
    cases h

theorem map_fst_map_pair {α β : Type} (l : List α) (f : α → β) :
    ((l.map (fun a => (a, f a))).map Prod.fst) = l := by
  induction l with
  | nil => rfl
  | cons a l ih => simp [ih]

theorem writeReq_eq_none (newTags : DesiredTags)
    (e : String × linkedFileType)
    (h : (processFile newTags e.2).2.length = 0) :
    writeReq newTags e = none := by
  simp only [writeReq]
  rw [if_neg (by simp [h])]

/-! ### The claims -/

/-- Claim C1: for every call to `writeImageTags`, for every file entry in
the mapping returned by the read phase, and for each field in creator,
license, rights that is present in the desired tags, a warning of the
exact form `WARNING: Overwriting <baseName> existing <field>:
<currentValue> with <desiredValue>` is appended to the returned list if
and only if the file's current value differs from the desired value
(including undefined-versus-value in either direction); the return value
is exactly the accumulated warning list. -/
theorem claim_C1 {ε : Type} (exif : Exiftool ε) (files : List String)
    (newTags : DesiredTags) (fileTags : List (String × linkedFileType))
    (hread : getTags exif files = Except.ok fileTags) :
    writeImageTags exif files newTags
      = Except.ok (specWarnings fileTags newTags) := by
  rw [writeImageTags_ok exif files newTags fileTags hread, writeLoop_eq]
  rcases getTags_ok_inv exif files fileTags hread with ⟨raws, _, hft⟩
  unfold specWarnings
  congr 1
  refine flatMap_congr_mem _ _ _ (fun e he => ?_)
  rw [hft] at he
  rw [processFile_eq]
  show specFileWarnings (basename e.2.fileName) newTags e.2
      = specFileWarnings e.2.fileName newTags e.2
  rw [linkFiles_basename_fileName raws e he]

/-- Witness for C1 at a concrete engine: one file with creator Alice and
desired creator Carol yields exactly the one stated warning. -/
theorem claim_C1_witness :
    writeImageTags exExif ["pics/a.jpg"] exDesired
      = Except.ok
          ["WARNING: Overwriting a.jpg existing creator: Alice with Carol"]
      := by
  rw [claim_C1 exExif ["pics/a.jpg"] exDesired (linkFiles [exRaw]) rfl]
  rfl

/-- Claim C10: the warnings list is deterministically ordered given the
read-phase mapping: files contribute in the mapping's entry-iteration
(insertion) order, and within a single file warnings appear in the fixed
field order creator, then license, then rights. -/
theorem claim_C10 (fileTags : List (String × linkedFileType))
    (newTags : DesiredTags) :
    (writeLoop fileTags newTags).1
      = fileTags.flatMap
          (fun e => specFileWarnings (basename e.2.fileName) newTags e.2) ∧
    ∀ base ct,
      specFileWarnings base newTags ct
        = specFieldWarnings base "creator" ct.creator newTags.creator ++
          specFieldWarnings base "license" ct.license newTags.license ++
          specFieldWarnings base "rights" ct.rights newTags.rights := by
  constructor
  · rw [writeLoop_eq]
    simp only [processFile_eq]
  · intro base ct
    rfl

/-- Claim C3: a write request is attempted for a file exactly when its
staged payload is non-empty; every issued request targets the file's
`sourceFile` path with the overwrite-original option and a non-empty
payload; when none of the three keys is present in the desired tags, no
write request is issued at all. -/
theorem claim_C3 (fileTags : List (String × linkedFileType))
    (newTags : DesiredTags) :
    ((writeLoop fileTags newTags).2
        = fileTags.filterMap (writeReq newTags)) ∧
    (∀ r ∈ (writeLoop fileTags newTags).2,
        r.options = ["-overwrite_original"] ∧ r.tags ≠ [] ∧
        ∃ e ∈ fileTags, r.path = e.2.sourceFile ∧
          r.tags = (processFile newTags e.2).2) ∧
    (newTags.creator = none → newTags.license = none →
      newTags.rights = none → (writeLoop fileTags newTags).2 = []) := by
  have hw := writeLoop_eq fileTags newTags
  refine ⟨by rw [hw], ?_, ?_⟩
  · intro r hr
    rw [hw] at hr
    rcases List.mem_filterMap.1 hr with ⟨e, he, heq⟩
    rcases writeReq_eq_some newTags e r heq with ⟨hr', hne⟩
    subst hr'
    exact ⟨rfl, hne, e, he, rfl, rfl⟩
  · intro hc hl hg
    rw [hw]
    rw [List.filterMap_eq_nil_iff]
    intro e _
    apply writeReq_eq_none
    rw [processFile_eq]
    simp [specStagedTags, hc, hl, hg]

/-- Witness for C3 at a concrete input: with no targeted keys, no write
request is issued. -/
theorem claim_C3_witness :
    (writeLoop (linkFiles [exRaw])
        { creator := none, license := none, rights := none }).2 = [] :=
  (claim_C3 (linkFiles [exRaw])
      { creator := none, license := none, rights := none }).2.2 rfl rfl rfl

/-- Claim C4: whether a field is targeted is decided by key existence in
the desired-tags object, not by value truthiness: each XMP key appears
in the staged payload exactly when the corresponding key is present, and
a key present with value undefined is still targeted — its comparison is
performed and the undefined value is staged — while an absent key is not
targeted. -/
theorem claim_C4 (newTags : DesiredTags) (ct : linkedFileType) :
    ((∃ t ∈ (processFile newTags ct).2, t.key = "XMP:Creator")
        ↔ newTags.creator.isSome = true) ∧
    ((∃ t ∈ (processFile newTags ct).2, t.key = "XMP:License")
        ↔ newTags.license.isSome = true) ∧
    ((∃ t ∈ (processFile newTags ct).2, t.key = "XMP:Rights")
        ↔ newTags.rights.isSome = true) ∧
    ((processFile { creator := some none, license := none, rights := none }
          ct).1
        = if ct.creator ≠ none then
            [mkWarning (basename ct.fileName) "creator" ct.creator none]
          else []) ∧
    ((processFile { creator := some none, license := none, rights := none }
          ct).2 = [{ key := "XMP:Creator", value := none }]) := by
  refine ⟨?_, ?_, ?_, ?_, ?_⟩
  · rw [processFile_eq]
    obtain ⟨oc, ol, og⟩ := newTags
    cases oc <;> cases ol <;> cases og <;> simp [specStagedTags]
  · rw [processFile_eq]
    obtain ⟨oc, ol, og⟩ := newTags
    cases oc <;> cases ol <;> cases og <;> simp [specStagedTags]
  · rw [processFile_eq]
    obtain ⟨oc, ol, og⟩ := newTags
    cases oc <;> cases ol <;> cases og <;> simp [specStagedTags]
  · rw [processFile_eq]
    simp [specFileWarnings, specFieldWarnings, mkWarning_eq_specWarning]
  · rw [processFile_eq]
    simp [specStagedTags]

theorem specFieldWarnings_nil_of_matches (base field : String)
    (current : Option String) (desired : Option (Option String))
    (h : fieldMatches desired current = true) :
    specFieldWarnings base field current desired = [] := by
  cases desired with
  | none => rfl
  | some v =>
    have hv : current = v := by simpa [fieldMatches] using h
    simp [specFieldWarnings, hv]

/-- Claim C2: every field present in the desired tags is staged into the
per-file payload under the fixed XMP tag name regardless of whether it
differs from the current value; in particular, when every targeted
field's desired value equals the current value, zero warnings are
produced but one write request is still issued per file that has at
least one targeted field. -/
theorem claim_C2 (fileTags : List (String × linkedFileType))
    (newTags : DesiredTags) :
    (∀ e ∈ fileTags, (processFile newTags e.2).2 = specStagedTags newTags) ∧
    ((∀ e ∈ fileTags,
        fieldMatches newTags.creator e.2.creator = true ∧
        fieldMatches newTags.license e.2.license = true ∧
        fieldMatches newTags.rights e.2.rights = true) →
      (writeLoop fileTags newTags).1 = [] ∧
      (writeLoop fileTags newTags).2.length
        = (fileTags.filter (fun _ => hasTargetedField newTags)).length) := by
  constructor
  · intro e _
    rw [processFile_eq]
  · intro hm
    have hw := writeLoop_eq fileTags newTags
    constructor
    · rw [hw]
      show fileTags.flatMap (fun e => (processFile newTags e.2).1) = []
      rw [List.flatMap_eq_nil_iff]
      intro e he
      rw [processFile_eq]
      show specFileWarnings (basename e.2.fileName) newTags e.2 = []
      rcases hm e he with ⟨h1, h2, h3⟩
      unfold specFileWarnings
      rw [specFieldWarnings_nil_of_matches _ _ _ _ h1,
          specFieldWarnings_nil_of_matches _ _ _ _ h2,
          specFieldWarnings_nil_of_matches _ _ _ _ h3]
      rfl
    · rw [hw]
      show (fileTags.filterMap (writeReq newTags)).length = _
      by_cases ht : hasTargetedField newTags = true
      · rw [length_filterMap_of_isSome]
        · simp only [ht, List.filter_true]
        · intro e _
          simp only [writeReq]
          rw [processFile_eq]
          rw [if_pos ((specStagedTags_length newTags).2 ht)]
          rfl
      · have ht' : hasTargetedField newTags = false := by simpa using ht
        have hz : (specStagedTags newTags).length = 0 := by
          by_contra hnz
          exact ht ((specStagedTags_length newTags).1 hnz)
        rw [List.filterMap_eq_nil_iff.2 (fun e _ => by
          apply writeReq_eq_none
          rw [processFile_eq]
          exact hz)]
        simp only [ht', List.filter_false]
        rfl

/-- Witness for C2 at a concrete input: desired creator equal to the
current creator yields no warning but still one write request. -/
theorem claim_C2_witness :
    (writeLoop (linkFiles [exRaw])
        { creator := some (some "Alice"), license := none,
          rights := none }).1 = [] ∧
    (writeLoop (linkFiles [exRaw])
        { creator := some (some "Alice"), license := none,
          rights := none }).2.length
      = ((linkFiles [exRaw]).filter
          (fun _ => hasTargetedField
            { creator := some (some "Alice"), license := none,
              rights := none })).length :=
  (claim_C2 (linkFiles [exRaw])
      { creator := some (some "Alice"), license := none, rights := none }).2
    (by decide)

/-- Claim C5: when all reads succeed, `getTags` returns a mapping keyed
by the base name of each reported source-file path, with distinct keys,
last-write-wins on base-name collisions, and each entry carrying
`fileName` equal to its key, `fileType` image, and `sourceFile`,
creator, license, rights taken from the normalized tag payload. -/
theorem claim_C5 {ε : Type} (exif : Exiftool ε) (files : List String)
    (raws : List RawTags)
    (hreads : files.map (fun file => exif.readRaw file readArgs)
        = raws.map Except.ok) :
    getTags exif files = Except.ok (linkFiles raws) ∧
    ((linkFiles raws).map Prod.fst).Nodup ∧
    (∀ k, objGet (linkFiles raws) k
        = (raws.reverse.find? (fun r => decide (rawKey r = k))).map
            toLinkedFile) ∧
    (∀ e ∈ linkFiles raws, ∃ r ∈ raws,
        e.1 = basename (jsonRoundTrip r).SourceFile ∧
        e.2.fileName = e.1 ∧ e.2.fileType = fileType.image ∧
        e.2.sourceFile = some (jsonRoundTrip r).SourceFile ∧
        e.2.creator = (jsonRoundTrip r).Creator ∧
        e.2.license = (jsonRoundTrip r).License ∧
        e.2.rights = (jsonRoundTrip r).Rights) ∧
    (∀ r ∈ raws, ∃ v, objGet (linkFiles raws) (rawKey r) = some v) := by
  refine ⟨?_, linkFiles_keys_nodup raws, objGet_linkFiles raws, ?_, ?_⟩
  · show (match promiseAll
            (files.map (fun file => exif.readRaw file readArgs)) with
          | Except.error e => Except.error e
          | Except.ok allTags => Except.ok (linkFiles allTags))
        = Except.ok (linkFiles raws)
    rw [hreads, promiseAll_map_ok]
  · intro e he
    rcases mem_linkFiles raws e he with ⟨r, hr, he'⟩
    subst he'
    exact ⟨r, hr, rfl, rfl, rfl, rfl, rfl, rfl, rfl⟩
  · intro r hr
    have hex : ∃ x ∈ raws.reverse,
        (fun r' => decide (rawKey r' = rawKey r)) x = true :=
      ⟨r, List.mem_reverse.2 hr, by simp⟩
    rcases Option.isSome_iff_exists.1 (List.find?_isSome.2 hex) with ⟨r', hr'⟩
    exact ⟨toLinkedFile r', by rw [objGet_linkFiles, hr']; rfl⟩

/-- Witness for C5 at a concrete engine whose single read succeeds. -/
theorem claim_C5_witness :
    getTags exExif ["pics/a.jpg"] = Except.ok (linkFiles [exRaw]) ∧
    ((linkFiles [exRaw]).map Prod.fst).Nodup ∧
    (∀ k, objGet (linkFiles [exRaw]) k
        = (([exRaw] : List RawTags).reverse.find?
            (fun r => decide (rawKey r = k))).map toLinkedFile) ∧
    (∀ e ∈ linkFiles [exRaw], ∃ r ∈ ([exRaw] : List RawTags),
        e.1 = basename (jsonRoundTrip r).SourceFile ∧
        e.2.fileName = e.1 ∧ e.2.fileType = fileType.image ∧
        e.2.sourceFile = some (jsonRoundTrip r).SourceFile ∧
        e.2.creator = (jsonRoundTrip r).Creator ∧
        e.2.license = (jsonRoundTrip r).License ∧
        e.2.rights = (jsonRoundTrip r).Rights) ∧
    (∀ r ∈ ([exRaw] : List RawTags), ∃ v,
        objGet (linkFiles [exRaw]) (rawKey r) = some v) :=
  claim_C5 exExif ["pics/a.jpg"] [exRaw] rfl

/-- Claim C6: a single failing read makes `getTags` fail as a whole with
a read failure and no partial mapping, and since `writeImageTags` awaits
`getTags` without catching, the same failure propagates out of
`writeImageTags` with no write request issued and no warnings
returned. -/
theorem claim_C6 {ε : Type} (exif : Exiftool ε) (files : List String)
    (newTags : DesiredTags) (f : String) (e : ε) (hf : f ∈ files)
    (herr : exif.readRaw f readArgs = Except.error e) :
    ∃ e', getTags exif files = Except.error e' ∧
      Except.error e' ∈ files.map (fun g => exif.readRaw g readArgs) ∧
      writeImageTags exif files newTags = Except.error e' ∧
      writeImageTagsTrace exif files newTags
        = files.map (fun g => Event.readEv g readArgs) ∧
      executedWrites exif files newTags = [] := by
  have hmem : Except.error e ∈ files.map (fun g => exif.readRaw g readArgs) :=
    List.mem_map.2 ⟨f, hf, herr⟩
  rcases promiseAll_error_of_mem _ e hmem with ⟨e', he', hmem'⟩
  have hget : getTags exif files = Except.error e' := by
    show (match promiseAll
            (files.map (fun file => exif.readRaw file readArgs)) with
          | Except.error e => Except.error e
          | Except.ok allTags => Except.ok (linkFiles allTags))
        = Except.error e'
    rw [he']
  refine ⟨e', hget, hmem', writeImageTags_error _ _ _ _ hget, ?_, ?_⟩
  · unfold writeImageTagsTrace
    rw [hget]
  · unfold executedWrites
    rw [hget]

/-- Witness for C6 at a concrete engine whose reads fail. -/
theorem claim_C6_witness :
    ∃ e', getTags exExifBadRead ["pics/a.jpg"] = Except.error e' ∧
      Except.error e'
        ∈ (["pics/a.jpg"] : List String).map
            (fun g => exExifBadRead.readRaw g readArgs) ∧
      writeImageTags exExifBadRead ["pics/a.jpg"] exDesired
        = Except.error e' ∧
      writeImageTagsTrace exExifBadRead ["pics/a.jpg"] exDesired
        = (["pics/a.jpg"] : List String).map
            (fun g => Event.readEv g readArgs) ∧
      executedWrites exExifBadRead ["pics/a.jpg"] exDesired = [] :=
  claim_C6 exExifBadRead ["pics/a.jpg"] exDesired "pics/a.jpg" "read fails"
    (by simp) rfl

/-- Claim C7: write-phase failures are swallowed: `writeImageTags` still
returns normally with the full accumulated warnings list, its return
value does not depend on the write outcomes at all (so full success and
partial write failure are indistinguishable to the caller), every
enqueued write is executed whatever the other outcomes are, and a
failure leaves its message in the console-error log. -/
theorem claim_C7 {ε : Type} (exif exifB : Exiftool ε) (files : List String)
    (newTags : DesiredTags) (fileTags : List (String × linkedFileType))
    (hread : getTags exif files = Except.ok fileTags)
    (hsame : exifB.readRaw = exif.readRaw) :
    writeImageTags exif files newTags
        = Except.ok ((writeLoop fileTags newTags).1) ∧
    writeImageTags exifB files newTags = writeImageTags exif files newTags ∧
    (executedWrites exif files newTags).map Prod.fst
        = (writeLoop fileTags newTags).2 ∧
    (∀ r ∈ (writeLoop fileTags newTags).2,
        (r, exif.write r.path r.tags r.options)
          ∈ executedWrites exif files newTags) ∧
    (writeImageTagsLog exif files newTags = []
        ↔ ∀ p ∈ executedWrites exif files newTags, p.2 = Except.ok ()) := by
  have hgetB : getTags exifB files = Except.ok fileTags := by
    unfold getTags
    rw [hsame]
    exact hread
  have hex : executedWrites exif files newTags
      = ((writeLoop fileTags newTags).2).map
          (fun r => (r, exif.write r.path r.tags r.options)) := by
    unfold executedWrites
    rw [hread]
  refine ⟨writeImageTags_ok _ _ _ _ hread, ?_, ?_, ?_, ?_⟩
  · rw [writeImageTags_ok exifB files newTags fileTags hgetB,
        writeImageTags_ok exif files newTags fileTags hread]
  · rw [hex]
    exact map_fst_map_pair _ _
  · intro r hr
    rw [hex]
    exact List.mem_map.2 ⟨r, hr, rfl⟩
  · unfold writeImageTagsLog
    cases hfs : firstErrorMessage (executedWrites exif files newTags) with
    | some m =>
      constructor
      · intro h
        simp at h
      · intro hall
        exfalso
        unfold firstErrorMessage at hfs
        rcases List.exists_of_findSome?_eq_some hfs with ⟨p, hp, hpm⟩
        rw [hall p hp] at hpm
        simp at hpm
    | none =>
      constructor
      · intro _ p hp
        unfold firstErrorMessage at hfs
        have hpn := List.findSome?_eq_none_iff.1 hfs p hp
        cases hp2 : p.2 with
        | error m => rw [hp2] at hpn; simp at hpn
        | ok u => cases u; rfl
      · intro _
        rfl

/-- Witness for C7: with an engine whose writes all fail, the function
still returns the full warnings list, and its result equals that of an
engine whose writes succeed. -/
theorem claim_C7_witness :
    writeImageTags exExifBadWrite ["pics/a.jpg"] exDesired
        = Except.ok ((writeLoop (linkFiles [exRaw]) exDesired).1) ∧
    writeImageTags exExif ["pics/a.jpg"] exDesired
        = writeImageTags exExifBadWrite ["pics/a.jpg"] exDesired :=
  ⟨(claim_C7 exExifBadWrite exExif ["pics/a.jpg"] exDesired
      (linkFiles [exRaw]) rfl rfl).1,
   (claim_C7 exExifBadWrite exExif ["pics/a.jpg"] exDesired
      (linkFiles [exRaw]) rfl rfl).2.1⟩

/-- Claim C8: with only the license key present in the desired tags, all
staged payload entries are XMP:License, every warning is a license
warning for some differing file, and the per-file computation does not
read the creator or rights fields at all (it depends only on the file
name and the license value). -/
theorem claim_C8 (fileTags : List (String × linkedFileType))
    (v : Option String) (d : DesiredTags)
    (hd : d = { creator := none, license := some v, rights := none }) :
    (∀ r ∈ (writeLoop fileTags d).2, ∀ t ∈ r.tags, t.key = "XMP:License") ∧
    (∀ w ∈ (writeLoop fileTags d).1, ∃ e ∈ fileTags,
        e.2.license ≠ v ∧
        w = mkWarning (basename e.2.fileName) "license" e.2.license v) ∧
    (∀ ct ct' : linkedFileType, ct.fileName = ct'.fileName →
        ct.license = ct'.license → processFile d ct = processFile d ct') := by
  subst hd
  have hw := writeLoop_eq fileTags
    { creator := none, license := some v, rights := none }
  refine ⟨?_, ?_, ?_⟩
  · intro r hr t ht
    rw [hw] at hr
    rcases List.mem_filterMap.1 hr with ⟨e, _, heq⟩
    rcases writeReq_eq_some _ e r heq with ⟨hr', _⟩
    subst hr'
    rw [processFile_eq] at ht
    simp only [specStagedTags] at ht
    simp at ht
    rw [ht]
  · intro w hwm
    rw [hw] at hwm
    rcases List.mem_flatMap.1 hwm with ⟨e, he, hwe⟩
    rw [processFile_eq] at hwe
    replace hwe : w ∈
        (if e.2.license ≠ v then
          [specWarning (basename e.2.fileName) "license" e.2.license v]
         else []) := by
      simpa [specFileWarnings, specFieldWarnings] using hwe
    by_cases hne : e.2.license ≠ v
    · rw [if_pos hne] at hwe
      simp at hwe
      exact ⟨e, he, hne, by rw [hwe, mkWarning_eq_specWarning]⟩
    · rw [if_neg hne] at hwe
      simp at hwe
  · intro ct ct' h1 h2
    unfold processFile updateField
    rw [h1, h2]

/-- Witness for C8 at concrete inputs: with a license-only desired-tags
object, two files agreeing on name and license but differing in creator,
rights and source path are processed identically. -/
theorem claim_C8_witness :
    processFile
        { creator := none, license := some (some "X"), rights := none }
        { fileName := "a.jpg", fileType := fileType.image,
          sourceFile := some "pics/a.jpg", creator := some "Alice",
          license := none, rights := none }
      = processFile
          { creator := none, license := some (some "X"), rights := none }
          { fileName := "a.jpg", fileType := fileType.image,
            sourceFile := some "p2/a.jpg", creator := some "Bob",
            license := none, rights := some "R" } :=
  (claim_C8 (linkFiles [exRaw]) (some "X")
      { creator := none, license := some (some "X"), rights := none }
      rfl).2.2 _ _ rfl rfl

theorem writeImageTagsTrace_error {ε : Type} (exif : Exiftool ε)
    (files : List String) (newTags : DesiredTags) (e : ε)
    (h : getTags exif files = Except.error e) :
    writeImageTagsTrace exif files newTags
      = files.map (fun g => Event.readEv g readArgs) := by
  unfold writeImageTagsTrace
  rw [h]

theorem writeImageTagsTrace_ok {ε : Type} (exif : Exiftool ε)
    (files : List String) (newTags : DesiredTags)
    (fileTags : List (String × linkedFileType))
    (h : getTags exif files = Except.ok fileTags) :
    writeImageTagsTrace exif files newTags
      = files.map (fun g => Event.readEv g readArgs)
        ++ ((writeLoop fileTags newTags).2).map Event.writeEv := by
  unfold writeImageTagsTrace
  rw [h]

theorem getElem_map_readEv (files : List String) (j : Nat) (x : Event)
    (h : (files.map (fun g => Event.readEv g readArgs))[j]? = some x) :
    ∃ g, x = Event.readEv g readArgs := by
  rw [List.getElem?_map] at h
  cases hg : files[j]? with
  | none => rw [hg] at h; cases h
  | some g =>
    rw [hg] at h
    cases h
    exact ⟨g, rfl⟩

theorem getElem_map_writeEv (reqs : List WriteRequest) (j : Nat) (x : Event)
    (h : (reqs.map Event.writeEv)[j]? = some x) :
    ∃ q, x = Event.writeEv q := by
  rw [List.getElem?_map] at h
  cases hg : reqs[j]? with
  | none => rw [hg] at h; cases h
  | some q =>
    rw [hg] at h
    cases h
    exact ⟨q, rfl⟩

/-- Claim C9: the read phase completes in full before any write request
is issued: in the interaction trace, every read event precedes every
write event, and when the read phase succeeds the write requests are
computed from the fully constructed read-phase mapping. -/
theorem claim_C9 {ε : Type} (exif : Exiftool ε) (files : List String)
    (newTags : DesiredTags) :
    (∀ (i j : Nat) (fi : String) (args : List String) (r : WriteRequest),
        (writeImageTagsTrace exif files newTags)[i]?
            = some (Event.readEv fi args) →
        (writeImageTagsTrace exif files newTags)[j]?
            = some (Event.writeEv r) → i < j) ∧
    (∀ fileTags, getTags exif files = Except.ok fileTags →
        writeImageTagsTrace exif files newTags
          = files.map (fun g => Event.readEv g readArgs)
            ++ ((writeLoop fileTags newTags).2).map Event.writeEv) := by
  constructor
  · intro i j fi args r hi hj
    cases hget : getTags exif files with
    | error e =>
      rw [writeImageTagsTrace_error exif files newTags e hget] at hj
      rcases getElem_map_readEv files j _ hj with ⟨g, hg⟩
      cases hg
    | ok fileTags =>
      rw [writeImageTagsTrace_ok exif files newTags fileTags hget]
        at hi hj
      have hiA : i < (files.map (fun g => Event.readEv g readArgs)).length
          := by
        by_contra hge
        push_neg at hge
        rw [List.getElem?_append_right hge] at hi
        rcases getElem_map_writeEv _ _ _ hi with ⟨q, hq⟩
        cases hq
      have hjA : (files.map (fun g => Event.readEv g readArgs)).length ≤ j
          := by
        by_contra hlt
        push_neg at hlt
        rw [List.getElem?_append, if_pos hlt] at hj
        rcases getElem_map_readEv files j _ hj with ⟨g, hg⟩
        cases hg
      exact lt_of_lt_of_le hiA hjA
  · intro fileTags h
    exact writeImageTagsTrace_ok exif files newTags fileTags h

/-- Witness for C9 at a concrete engine: the trace is the read events
followed by the write events. -/
theorem claim_C9_witness :
    writeImageTagsTrace exExif ["pics/a.jpg"] exDesired
      = (["pics/a.jpg"] : List String).map
          (fun g => Event.readEv g readArgs)
        ++ ((writeLoop (linkFiles [exRaw]) exDesired).2).map Event.writeEv :=
  (claim_C9 exExif ["pics/a.jpg"] exDesired).2 (linkFiles [exRaw]) rfl

end MetadataUtils
